import Mathlib

/-!
Verification of the line-by-line accessibility analyzer
(src/LineByLineAccessibility.ts).

The source is browser TypeScript.  We embed the three pure computations it
performs — `clientRectUnion`, `pageIndexOfClientRect`, the line grouper
`linesOfSpans` and the page assigner `pagesOfLines` — as executable Lean
functions.  JavaScript numbers are modelled as extended rationals (finite
rationals plus the two infinities); the browser environment quantities
(`window.innerWidth`, `window.pageXOffset`, `document.body.scrollWidth`)
become explicit rational parameters `w`, `off`, `totalW`, which in a browser
are always finite.
-/

attribute [local semireducible] Rat.add Rat.sub Rat.mul Rat.inv

namespace LBLA

/-- A JavaScript number as it occurs in this program: a finite rational or
one of the two infinities.  NaN is not modelled; the operations below note
the (unreachable under the preconditions of the theorems) cases where
JavaScript would produce NaN. -/
inductive JsNum where
  | negInf : JsNum
  | fin : ℚ → JsNum
  | posInf : JsNum
deriving DecidableEq, Repr

/-- JavaScript comparison `a <= b` restricted to non-NaN numbers, where it
agrees with the standard order on the extended reals. -/
def jsLe : JsNum → JsNum → Bool
  | .negInf, _ => true
  | _, .posInf => true
  | .posInf, .negInf => false
  | .posInf, .fin _ => false
  | .fin _, .negInf => false
  | .fin a, .fin b => decide (a ≤ b)

/-- JavaScript comparison `a < b` restricted to non-NaN numbers. -/
def jsLt : JsNum → JsNum → Bool
  | _, .negInf => false
  | .negInf, _ => true
  | .posInf, _ => false
  | .fin _, .posInf => true
  | .fin a, .fin b => decide (a < b)

/-- `Math.min` of two non-NaN numbers. -/
def jsMin (a b : JsNum) : JsNum := if jsLe a b then a else b

/-- `Math.max` of two non-NaN numbers. -/
def jsMax (a b : JsNum) : JsNum := if jsLe a b then b else a

/-- Addition of a finite number (the second argument is always finite in the
program: it is `window.pageXOffset`), so no NaN case arises. -/
def jsAdd : JsNum → ℚ → JsNum
  | .negInf, _ => .negInf
  | .posInf, _ => .posInf
  | .fin a, b => .fin (a + b)

/-- Subtraction, used by `clientRectUnion` for `right - left` and
`bottom - top`.  The same-infinity cases would be NaN in JavaScript; they
never arise for the rectangles the program unions (the minimum and maximum
of one set of values can only both be infinite when that set contains both
infinities, excluded by the finiteness of measured rectangles), and are
mapped to 0 here. -/
def jsSub : JsNum → JsNum → JsNum
  | .fin a, .fin b => .fin (a - b)
  | .posInf, .fin _ => .posInf
  | .posInf, .negInf => .posInf
  | .fin _, .negInf => .posInf
  | .negInf, .fin _ => .negInf
  | .negInf, .posInf => .negInf
  | .fin _, .posInf => .negInf
  | .posInf, .posInf => .fin 0
  | .negInf, .negInf => .fin 0

/-- Division by the finite number `w` (always `window.innerWidth`).  For
`w > 0` — the precondition the specification imposes on the page width —
this agrees with JavaScript.  The case `0 / 0` would be NaN and is mapped
to `+inf`. -/
def jsDiv : JsNum → ℚ → JsNum
  | .posInf, w => if 0 ≤ w then .posInf else .negInf
  | .negInf, w => if 0 ≤ w then .negInf else .posInf
  | .fin q, w =>
    if w = 0 then (if q < 0 then .negInf else .posInf)
    else .fin (q / w)

/-- `Math.floor` on non-NaN numbers. -/
def jsFloor : JsNum → JsNum
  | .negInf => .negInf
  | .posInf => .posInf
  | .fin q => .fin (⌊q⌋ : ℤ)

/-- The `ClientRect` record of the DOM: four edges plus the derived width
and height, every field a JavaScript number. -/
structure ClientRect where
  left : JsNum
  right : JsNum
  top : JsNum
  bottom : JsNum
  width : JsNum
  height : JsNum
deriving DecidableEq, Repr

/-- Source `clientRectUnion`: the smallest normalized rectangle enclosing
both arguments.  Each edge is `Math.min` or `Math.max` over all four
horizontal (or vertical) coordinates of the two inputs. -/
def clientRectUnion (a b : ClientRect) : ClientRect :=
  let left := jsMin (jsMin (jsMin a.left a.right) b.left) b.right
  let right := jsMax (jsMax (jsMax a.left a.right) b.left) b.right
  let top := jsMin (jsMin (jsMin a.top a.bottom) b.top) b.bottom
  let bottom := jsMax (jsMax (jsMax a.top a.bottom) b.top) b.bottom
  { left := left
    right := right
    top := top
    bottom := bottom
    width := jsSub right left
    height := jsSub bottom top }

/-- Source `pageIndexOfClientRect`: the page on which a rectangle begins,
`Math.floor((rect.left + window.pageXOffset) / window.innerWidth)`.
`off` is the horizontal scroll offset and `w` the page width. -/
def pageIndexOfClientRect (w off : ℚ) (rect : ClientRect) : JsNum :=
  jsFloor (jsDiv (jsAdd rect.left off) w)

/-- A finite `ClientRect` built from four rational edges; the width and
height fields are derived, as `getBoundingClientRect` guarantees. -/
def finRect (l r t b : ℚ) : ClientRect :=
  { left := .fin l
    right := .fin r
    top := .fin t
    bottom := .fin b
    width := .fin (r - l)
    height := .fin (b - t) }

/-- A single-word span produced by `transformWordsToSpans`, reduced to the
two observations `linesOfSpans` makes of it: the text of its one child node
and the rectangle `getBoundingClientRect` reports for it. -/
structure Span where
  text : String
  rect : ClientRect
deriving DecidableEq, Repr

/-- The source `Line` record: the unioned rectangle and the joined text. -/
structure Line where
  clientRect : ClientRect
  text : String
deriving DecidableEq, Repr

/-- An emitted line together with the list of member spans it was built
from.  The source keeps the members in the local `currentLineSpans` and
discards them after computing `text`; we retain them as ghost data so that
properties relating a line to its members can be stated.  Erasing the
`members` field (`toLine`) gives exactly the record the source emits. -/
structure EmLine where
  clientRect : ClientRect
  text : String
  members : List Span
deriving DecidableEq, Repr

/-- Erase the ghost member list, leaving the record the source stores. -/
def EmLine.toLine (e : EmLine) : Line :=
  { clientRect := e.clientRect, text := e.text }

/-- The initial value of `currentLineClientRect` in `linesOfSpans`: the
inverted sentinel rectangle. -/
def sentinelRect : ClientRect :=
  { left := .posInf
    right := .negInf
    top := .posInf
    bottom := .negInf
    width := .negInf
    height := .negInf }

/-- The mutable state of `linesOfSpans` and its inner `processSpans`:
the output array `lines`, the in-progress line (`currentLineSpans` and
`currentLineClientRect`), and the lookback scalars.  `currentLineIndex` is
not modelled separately: every write `lines[currentLineIndex] = ...`
happens with `currentLineIndex` equal to `lines.length` (the index starts
at 0 and is incremented exactly once after each write during the loop),
so the writes are appends. -/
structure GroupState where
  lines : List EmLine
  currentLineSpans : List Span
  currentLineClientRect : ClientRect
  lastBottom : JsNum
  lastLeft : JsNum
  lastPageIndex : ℕ
deriving DecidableEq, Repr

/-- The single ASCII space used by `join(" ")`. -/
def spaceSep : String := " "

/-- Source `addCurrentLineToLines`: seal the in-progress line into the
output array.  `text` is `currentLineSpans.map(...).join(" ")`. -/
def addCurrentLineToLines (st : GroupState) : List EmLine :=
  st.lines ++
    [{ clientRect := st.currentLineClientRect
       text := String.intercalate spaceSep (st.currentLineSpans.map Span.text)
       members := st.currentLineSpans }]

/-- The new-line test of `processSpans`:
`rect.left <= lastLeft || rect.top >= lastBottom || onNextPage`. -/
def newLineIsBeginning (w off : ℚ) (st : GroupState) (rect : ClientRect) : Bool :=
  jsLe rect.left st.lastLeft
  || jsLe st.lastBottom rect.top
  || jsLt (.fin (st.lastPageIndex : ℚ)) (pageIndexOfClientRect w off rect)

/-- The body of the `for` loop of `processSpans`, for one span. -/
def processSpan (w off : ℚ) (st : GroupState) (span : Span) : GroupState :=
  let rect := span.rect
  let onNextPage := jsLt (.fin (st.lastPageIndex : ℚ)) (pageIndexOfClientRect w off rect)
  let st1 :=
    if newLineIsBeginning w off st rect then
      { st with
        lines := addCurrentLineToLines st
        currentLineSpans := [span]
        currentLineClientRect := rect }
    else
      { st with
        currentLineSpans := st.currentLineSpans ++ [span]
        currentLineClientRect := clientRectUnion st.currentLineClientRect rect }
  { st1 with
    lastBottom := rect.bottom
    lastLeft := rect.left
    lastPageIndex := if onNextPage then st1.lastPageIndex + 1 else st1.lastPageIndex }

/-- The initial state of `linesOfSpans`. -/
def initGroupState : GroupState :=
  { lines := []
    currentLineSpans := []
    currentLineClientRect := sentinelRect
    lastBottom := .negInf
    lastLeft := .negInf
    lastPageIndex := 0 }

/-- Source `linesOfSpans`, instrumented with the ghost member lists.
After the loop the source runs
`if(currentLineSpans !== []) { addCurrentLineToLines(); }`; the guard
compares the array by reference against a fresh literal and is therefore
always true in JavaScript, so the final seal is unconditional. -/
def linesOfSpansE (w off : ℚ) (spans : List Span) : List EmLine :=
  addCurrentLineToLines (spans.foldl (processSpan w off) initGroupState)

/-- Source `linesOfSpans`: the emitted `Line` records. -/
def linesOfSpans (w off : ℚ) (spans : List Span) : List Line :=
  (linesOfSpansE w off spans).map EmLine.toLine

/-- A JavaScript number is an array index exactly when it is a
non-negative integer (we omit the irrelevant upper bound of 2^32 - 1,
far beyond any page count).  Assigning `pages[k]` for any other `k`
(negative, fractional, or infinite) creates a plain object property that
is invisible to the array sequence: it affects neither `length` nor the
indexed elements. -/
def jsArrayIndex : JsNum → Option ℕ
  | .negInf => none
  | .posInf => none
  | .fin q => if 0 ≤ q ∧ q.den = 1 then some q.num.toNat else none

/-- The `pages` array of `pagesOfLines`, which JavaScript lets be sparse:
`getElem i` is `some` exactly where `pages[i]` has been assigned (a hole
reads as `undefined`, i.e. `none`), and `length` is one more than the
largest assigned index.  Each assigned slot holds the `lines` list of the
`Page` object stored there. -/
structure JsPages where
  getElem : ℕ → Option (List Line)
  length : ℕ

/-- The empty `pages` array. -/
def emptyPages : JsPages :=
  { getElem := fun _ => none, length := 0 }

/-- `pages[i] = {lines: ls}` for a genuine array index `i`. -/
def setPage (p : JsPages) (i : ℕ) (ls : List Line) : JsPages :=
  { getElem := fun j => if j = i then some ls else p.getElem j
    length := max p.length (i + 1) }

/-- The first loop body of `pagesOfLines`: compute the page index of the
line, create the page if absent, and push the line.  A non-array-index
page index leaves the array itself unchanged (see `jsArrayIndex`). -/
def assignLine (w off : ℚ) (p : JsPages) (line : Line) : JsPages :=
  match jsArrayIndex (pageIndexOfClientRect w off line.clientRect) with
  | none => p
  | some i => setPage p i (((p.getElem i).getD []) ++ [line])

/-- The second loop of `pagesOfLines`: for `i` from 0 to `totalPages - 1`,
fill any hole with an empty page. -/
def fillPages (p : JsPages) (totalPages : ℕ) : JsPages :=
  (List.range totalPages).foldl
    (fun q i => if (q.getElem i).isNone then setPage q i [] else q) p

/-- Source `pagesOfLines`.  `totalW` is `document.body.scrollWidth`; the
total page count is `Math.ceil(totalW / w)` (a negative or zero count runs
the fill loop zero times, hence `Int.toNat`). -/
def pagesOfLines (w off totalW : ℚ) (lines : List Line) : JsPages :=
  fillPages (lines.foldl (assignLine w off) emptyPages) (⌈totalW / w⌉).toNat

/-- The `lines` list of page `i` of the result (reading a hole, which the
claims exclude, gives the empty list). -/
def pageLinesAt (p : JsPages) (i : ℕ) : List Line :=
  (p.getElem i).getD []

/-- The page sequence read off as a list: position `i` holds `pages[i]`,
`none` marking a hole. -/
def pagesList (p : JsPages) : List (Option (List Line)) :=
  (List.range p.length).map p.getElem

/-- All lines of all pages, concatenated in increasing page-index order. -/
def pagesFlatten (p : JsPages) : List Line :=
  (List.range p.length).flatMap (fun i => pageLinesAt p i)

/-- Fold of `Math.min` over a list, from the identity of minimum. -/
def jsMinList (l : List JsNum) : JsNum := l.foldl jsMin .posInf

/-- Fold of `Math.max` over a list, from the identity of maximum. -/
def jsMaxList (l : List JsNum) : JsNum := l.foldl jsMax .negInf

/-- A normalized rectangle: left at most right, top at most bottom. -/
def NormRect (r : ClientRect) : Prop :=
  jsLe r.left r.right = true ∧ jsLe r.top r.bottom = true

instance normRectDecidable (r : ClientRect) : Decidable (NormRect r) :=
  inferInstanceAs (Decidable (_ ∧ _))

/-- The previous fragment of a traversal prefix as the specification
describes the lookback state: its left edge, initially minus infinity.
Stated from the specification wording, for comparison with the state the
code maintains. -/
def specPrevLeft (pre : List Span) : JsNum :=
  match pre.getLast? with
  | none => .negInf
  | some s => s.rect.left

/-- The previous fragment of a traversal prefix: its bottom edge,
initially minus infinity.  Stated from the specification wording. -/
def specPrevBottom (pre : List Span) : JsNum :=
  match pre.getLast? with
  | none => .negInf
  | some s => s.rect.bottom

/-- One step of the page counter: increment when the page index of the
fragment exceeds the current counter. -/
def crossStep (w off : ℚ) (c : ℕ) (s : Span) : ℕ :=
  if jsLt (.fin (c : ℚ)) (pageIndexOfClientRect w off s.rect) then c + 1 else c

/-- The page counter threaded from an arbitrary starting value. -/
def crossingsFrom (w off : ℚ) (c0 : ℕ) (l : List Span) : ℕ :=
  l.foldl (crossStep w off) c0

/-- The page counter as the specification describes it: starting at 0 and
incremented by exactly 1 at each fragment whose page index exceeds the
current counter.  Stated from the specification wording. -/
def specCrossings (w off : ℚ) (pre : List Span) : ℕ :=
  crossingsFrom w off 0 pre

/-- The record an empty `lines` slot would read as; used only as the
default value of list lookups in closed statements. -/
def emptyLine : Line :=
  { clientRect := sentinelRect, text := "" }

/-- Scenario input: one word at the far left of page 0. -/
def spanA1 : Span :=
  { text := "alpha", rect := finRect 0 10 0 10 }

/-- Scenario input: a second word continuing the same visual line. -/
def spanA2 : Span :=
  { text := "beta", rect := finRect 15 25 0 10 }

/-- Scenario input: a word whose left edge is 20. -/
def spanB1 : Span :=
  { text := "gamma", rect := finRect 20 30 0 10 }

/-- Scenario input: a word at the same height whose left edge decreased
to 5, triggering the wraparound case of the new-line condition. -/
def spanB2 : Span :=
  { text := "delta", rect := finRect 5 15 0 10 }

/-- Scenario input: a word beginning on page 1 (left edge 110 with page
width 100). -/
def spanC2 : Span :=
  { text := "epsilon", rect := finRect 110 120 0 10 }

/-- The pages array is well formed: an assigned slot lies below the
length.  Every array reachable in `pagesOfLines` satisfies this, since
`setPage` grows `length` past the assigned index. -/
def PagesWF (p : JsPages) : Prop :=
  ∀ j, ((p.getElem j).isSome = true) → j < p.length

/-- The `Line` record the grouper builds from `spanA1` and `spanA2`. -/
def lineA : Line :=
  { clientRect := clientRectUnion (finRect 0 10 0 10) (finRect 15 25 0 10)
    text := "alpha beta" }

/-- The single line the grouper builds from `spanA1` and `spanA2`, with
its ghost member list. -/
def emLineA : EmLine :=
  { clientRect := clientRectUnion (finRect 0 10 0 10) (finRect 15 25 0 10)
    text := "alpha beta"
    members := [spanA1, spanA2] }

/-- The rectangle `r` is the component-wise union of the rectangles of the
members `ms`: left the minimum of their lefts, right the maximum of their
rights, top the minimum of their tops, bottom the maximum of their
bottoms. -/
def RectMM (r : ClientRect) (ms : List Span) : Prop :=
  r.left = jsMinList (ms.map fun s => s.rect.left)
  ∧ r.right = jsMaxList (ms.map fun s => s.rect.right)
  ∧ r.top = jsMinList (ms.map fun s => s.rect.top)
  ∧ r.bottom = jsMaxList (ms.map fun s => s.rect.bottom)

/-- The text of an emitted line is its member texts joined by single
spaces, in member order. -/
def TextOk (e : EmLine) : Prop :=
  e.text = String.intercalate spaceSep (e.members.map Span.text)

/-- The loop invariant of `processSpans` relating rectangles to member
lists.  When no span has been grouped yet the in-progress rectangle is the
sentinel and the lookback bottom is minus infinity (which forces the next
span to begin a new line, so the sentinel rectangle is never unioned);
once members exist, the in-progress rectangle is exactly their union and
is normalized; sealed lines with members carry their union rectangle, and
the only sealed line without members carries the sentinel rectangle. -/
structure GroupInv (st : GroupState) : Prop where
  emptyCur : st.currentLineSpans = [] →
    st.lastBottom = .negInf ∧ st.currentLineClientRect = sentinelRect
  cur : st.currentLineSpans ≠ [] →
    RectMM st.currentLineClientRect st.currentLineSpans
    ∧ NormRect st.currentLineClientRect
  sealed : ∀ e ∈ st.lines, e.members ≠ [] → RectMM e.clientRect e.members
  sealedEmpty : ∀ e ∈ st.lines, e.members = [] → e.clientRect = sentinelRect

theorem jsLe_refl (a : JsNum) : jsLe a a = true := by
  cases a <;> simp [jsLe]

theorem jsLe_trans {a b c : JsNum} (h1 : jsLe a b = true) (h2 : jsLe b c = true) :
    jsLe a c = true := by
  cases a <;> cases b <;> cases c <;> simp_all [jsLe] <;> exact le_trans h1 h2

theorem jsLe_total (a b : JsNum) : jsLe a b = true ∨ jsLe b a = true := by
  cases a <;> cases b <;> simp [jsLe] <;> exact le_total _ _

theorem jsMin_le_left (a b : JsNum) : jsLe (jsMin a b) a = true := by
  unfold jsMin
  split
  · exact jsLe_refl a
  · rcases jsLe_total a b with h | h
    · simp_all
    · exact h

theorem jsMin_le_right (a b : JsNum) : jsLe (jsMin a b) b = true := by
  unfold jsMin
  split
  · assumption
  · exact jsLe_refl b

theorem jsLe_jsMax_left (a b : JsNum) : jsLe a (jsMax a b) = true := by
  unfold jsMax
  split
  · assumption
  · exact jsLe_refl a

theorem jsLe_jsMax_right (a b : JsNum) : jsLe b (jsMax a b) = true := by
  unfold jsMax
  split
  · exact jsLe_refl b
  · rcases jsLe_total a b with h | h
    · simp_all
    · exact h

theorem jsMin_choice (a b : JsNum) : jsMin a b = a ∨ jsMin a b = b := by
  unfold jsMin; split <;> simp

theorem jsMin_posInf (a : JsNum) : jsMin .posInf a = a := by
  cases a <;> simp [jsMin, jsLe]

theorem jsMax_negInf (a : JsNum) : jsMax .negInf a = a := by
  cases a <;> simp [jsMax, jsLe]

theorem jsMinList_append (l : List JsNum) (x : JsNum) :
    jsMinList (l ++ [x]) = jsMin (jsMinList l) x := by
  simp [jsMinList, List.foldl_append]

theorem jsMaxList_append (l : List JsNum) (x : JsNum) :
    jsMaxList (l ++ [x]) = jsMax (jsMaxList l) x := by
  simp [jsMaxList, List.foldl_append]

theorem jsMinList_single (x : JsNum) : jsMinList [x] = x := by
  simp [jsMinList, jsMin_posInf]

theorem jsMaxList_single (x : JsNum) : jsMaxList [x] = x := by
  simp [jsMaxList, jsMax_negInf]

theorem foldl_jsMin_choice (a : JsNum) (l : List JsNum) :
    l.foldl jsMin a = a ∨ l.foldl jsMin a ∈ l := by
  induction l generalizing a with
  | nil => left; rfl
  | cons x t ih =>
    rcases ih (jsMin a x) with h | h
    · rcases jsMin_choice a x with h2 | h2
      · left; rw [List.foldl_cons, h, h2]
      · right; rw [List.foldl_cons, h, h2]; exact List.mem_cons_self x t
    · right; exact List.mem_cons_of_mem x h

theorem jsMinList_mem {l : List JsNum} (h : l ≠ []) : jsMinList l ∈ l := by
  cases l with
  | nil => exact absurd rfl h
  | cons x t =>
    show List.foldl jsMin .posInf (x :: t) ∈ x :: t
    rw [List.foldl_cons, jsMin_posInf]
    rcases foldl_jsMin_choice x t with h3 | h3
    · rw [h3]; exact List.mem_cons_self x t
    · exact List.mem_cons_of_mem x h3

theorem foldl_jsMin_le (a : JsNum) (l : List JsNum) :
    jsLe (l.foldl jsMin a) a = true ∧ ∀ x ∈ l, jsLe (l.foldl jsMin a) x = true := by
  induction l generalizing a with
  | nil => exact ⟨jsLe_refl a, by simp⟩
  | cons y t ih =>
    rw [List.foldl_cons]
    rcases ih (jsMin a y) with ⟨h1, h2⟩
    refine ⟨jsLe_trans h1 (jsMin_le_left a y), ?_⟩
    intro x hx
    rcases List.mem_cons.mp hx with rfl | hx
    · exact jsLe_trans h1 (jsMin_le_right a x)
    · exact h2 x hx

theorem foldl_jsMax_ge (a : JsNum) (l : List JsNum) :
    jsLe a (l.foldl jsMax a) = true ∧ ∀ x ∈ l, jsLe x (l.foldl jsMax a) = true := by
  induction l generalizing a with
  | nil => exact ⟨jsLe_refl a, by simp⟩
  | cons y t ih =>
    rw [List.foldl_cons]
    rcases ih (jsMax a y) with ⟨h1, h2⟩
    refine ⟨jsLe_trans (jsLe_jsMax_left a y) h1, ?_⟩
    intro x hx
    rcases List.mem_cons.mp hx with rfl | hx
    · exact jsLe_trans (jsLe_jsMax_right a x) h1
    · exact h2 x hx

theorem jsMinList_le {l : List JsNum} {x : JsNum} (h : x ∈ l) :
    jsLe (jsMinList l) x = true :=
  (foldl_jsMin_le .posInf l).2 x h

theorem jsMaxList_ge {l : List JsNum} {x : JsNum} (h : x ∈ l) :
    jsLe x (jsMaxList l) = true :=
  (foldl_jsMax_ge .negInf l).2 x h

theorem jsLe_antisymm {a b : JsNum} (h1 : jsLe a b = true) (h2 : jsLe b a = true) :
    a = b := by
  cases a <;> cases b <;> simp_all [jsLe]
  exact le_antisymm h1 h2

theorem jsMin_eq_left {a b : JsNum} (h : jsLe a b = true) : jsMin a b = a := by
  unfold jsMin; simp [h]

theorem jsMin_eq_right {a b : JsNum} (h : jsLe b a = true) : jsMin a b = b := by
  unfold jsMin
  split
  · exact jsLe_antisymm (by assumption) h
  · rfl

theorem jsMax_eq_right {a b : JsNum} (h : jsLe a b = true) : jsMax a b = b := by
  unfold jsMax; simp [h]

theorem jsMax_eq_left {a b : JsNum} (h : jsLe b a = true) : jsMax a b = a := by
  unfold jsMax
  split
  · exact (jsLe_antisymm (by assumption) h).symm
  · rfl

theorem jsMax_insert {a b c : JsNum} (h : jsLe b c = true) :
    jsMax (jsMax a b) c = jsMax a c := by
  rcases jsLe_total b a with h1 | h1
  · rw [jsMax_eq_left h1]
  · rw [jsMax_eq_right h1, jsMax_eq_right h, jsMax_eq_right (jsLe_trans h1 h)]

/-- The union rectangle is always normalized: its left edge is a minimum
over a set of values containing its right edge maximum witnesses. -/
theorem clientRectUnion_norm (a b : ClientRect) : NormRect (clientRectUnion a b) := by
  constructor
  · exact jsLe_trans
      (jsLe_trans
        (jsLe_trans (jsMin_le_left _ b.right) (jsMin_le_left _ b.left))
        (jsMin_le_left a.left a.right))
      (jsLe_trans
        (jsLe_trans (jsLe_jsMax_left a.left a.right) (jsLe_jsMax_left _ b.left))
        (jsLe_jsMax_left _ b.right))
  · exact jsLe_trans
      (jsLe_trans
        (jsLe_trans (jsMin_le_left _ b.bottom) (jsMin_le_left _ b.top))
        (jsMin_le_left a.top a.bottom))
      (jsLe_trans
        (jsLe_trans (jsLe_jsMax_left a.top a.bottom) (jsLe_jsMax_left _ b.top))
        (jsLe_jsMax_left _ b.bottom))

/-- For normalized inputs, the union edges are the pairwise minima and
maxima of the corresponding input edges. -/
theorem clientRectUnion_edges (a b : ClientRect) (ha : NormRect a) (hb : NormRect b) :
    (clientRectUnion a b).left = jsMin a.left b.left
    ∧ (clientRectUnion a b).right = jsMax a.right b.right
    ∧ (clientRectUnion a b).top = jsMin a.top b.top
    ∧ (clientRectUnion a b).bottom = jsMax a.bottom b.bottom := by
  refine ⟨?_, ?_, ?_, ?_⟩
  · show jsMin (jsMin (jsMin a.left a.right) b.left) b.right = jsMin a.left b.left
    rw [jsMin_eq_left ha.1,
      jsMin_eq_left (jsLe_trans (jsMin_le_right a.left b.left) hb.1)]
  · show jsMax (jsMax (jsMax a.left a.right) b.left) b.right = jsMax a.right b.right
    rw [jsMax_eq_right ha.1, jsMax_insert hb.1]
  · show jsMin (jsMin (jsMin a.top a.bottom) b.top) b.bottom = jsMin a.top b.top
    rw [jsMin_eq_left ha.2,
      jsMin_eq_left (jsLe_trans (jsMin_le_right a.top b.top) hb.2)]
  · show jsMax (jsMax (jsMax a.top a.bottom) b.top) b.bottom = jsMax a.bottom b.bottom
    rw [jsMax_eq_right ha.2, jsMax_insert hb.2]

/-- Subtracting a smaller value gives a non-negative result. -/
theorem jsSub_nonneg {a b : JsNum} (h : jsLe a b = true) :
    jsLe (.fin 0) (jsSub b a) = true := by
  cases a <;> cases b <;> simp_all [jsLe, jsSub]

/-- C10: for every pair of input rectangles with finite edges, even
un-normalized ones, `clientRectUnion` returns a normalized rectangle:
left at most right and top at most bottom, the width field equal to
right minus left, the height field equal to bottom minus top, and both
the width and the height non-negative. -/
theorem c10_clientRectUnion_normalized (a1 a2 a3 a4 b1 b2 b3 b4 : ℚ) :
    NormRect (clientRectUnion (finRect a1 a2 a3 a4) (finRect b1 b2 b3 b4))
    ∧ (clientRectUnion (finRect a1 a2 a3 a4) (finRect b1 b2 b3 b4)).width
      = jsSub (clientRectUnion (finRect a1 a2 a3 a4) (finRect b1 b2 b3 b4)).right
          (clientRectUnion (finRect a1 a2 a3 a4) (finRect b1 b2 b3 b4)).left
    ∧ (clientRectUnion (finRect a1 a2 a3 a4) (finRect b1 b2 b3 b4)).height
      = jsSub (clientRectUnion (finRect a1 a2 a3 a4) (finRect b1 b2 b3 b4)).bottom
          (clientRectUnion (finRect a1 a2 a3 a4) (finRect b1 b2 b3 b4)).top
    ∧ jsLe (.fin 0) (clientRectUnion (finRect a1 a2 a3 a4) (finRect b1 b2 b3 b4)).width
      = true
    ∧ jsLe (.fin 0) (clientRectUnion (finRect a1 a2 a3 a4) (finRect b1 b2 b3 b4)).height
      = true := by
  have hn := clientRectUnion_norm (finRect a1 a2 a3 a4) (finRect b1 b2 b3 b4)
  exact ⟨hn, rfl, rfl, jsSub_nonneg hn.1, jsSub_nonneg hn.2⟩

/-- C1 fails on the code: on the non-empty input consisting of the single
fragment `spanA1`, `linesOfSpans` emits the sentinel line created before
any fragment arrived as an empty leading line (its text is empty and its
rectangle is the inverted sentinel), instead of discarding it.  The first
iteration of `processSpans` seals the sentinel line into `lines[0]`
before `beginNextLine` runs. -/
theorem c1_phantom_first_line_emitted :
    linesOfSpans 100 0 [spanA1] =
      [{ clientRect := sentinelRect, text := "" },
       { clientRect := finRect 0 10 0 10, text := "alpha" }] := by
  decide

/-- C2 fails on the code: on empty fragment input the grouper does not
return the empty line sequence but a single phantom line, because the
guard `currentLineSpans !== []` compares against a fresh array literal by
reference and is always true.  The overall page output for
`totalPageCount = 1` is nevertheless `[{lines: []}]`, since the phantom
line has page index plus infinity, which is not an array index, so the
page assigner silently drops it. -/
theorem c2_empty_input_emits_phantom_line :
    linesOfSpans 100 0 [] = [{ clientRect := sentinelRect, text := "" }]
    ∧ pagesList (pagesOfLines 100 0 100 (linesOfSpans 100 0 [])) = [some []] := by
  decide

/-- C6 fails on the code: concatenating the lines of all pages in page
order does not reproduce the line grouper output.  On the input
`[spanA1]` the grouper emits two lines (the phantom empty leading line
and the real one), but the page concatenation contains only the real
line: the phantom line, whose page index is plus infinity, is dropped by
the page assigner. -/
theorem c6_phantom_line_dropped_by_pages :
    (linesOfSpans 100 0 [spanA1]).length = 2
    ∧ pagesFlatten (pagesOfLines 100 0 100 (linesOfSpans 100 0 [spanA1]))
      = [{ clientRect := finRect 0 10 0 10, text := "alpha" }]
    ∧ pagesFlatten (pagesOfLines 100 0 100 (linesOfSpans 100 0 [spanA1]))
      ≠ linesOfSpans 100 0 [spanA1] := by
  decide

/-- C7 fails on the code: even on an input whose fragment page indices
are monotonically non-decreasing (both fragments on page 0), the first
two consecutive output lines violate page-index monotonicity, because
line 0 is the phantom sentinel line whose rectangle has left edge plus
infinity and hence page index plus infinity, while line 1 has page
index 0. -/
theorem c7_phantom_breaks_monotonicity :
    ([spanB1, spanB2].map (fun s => pageIndexOfClientRect 100 0 s.rect))
      = [.fin 0, .fin 0]
    ∧ (linesOfSpans 100 0 [spanB1, spanB2]).length = 3
    ∧ jsLe
        (pageIndexOfClientRect 100 0
          (((linesOfSpans 100 0 [spanB1, spanB2]).getD 0 emptyLine).clientRect))
        (pageIndexOfClientRect 100 0
          (((linesOfSpans 100 0 [spanB1, spanB2]).getD 1 emptyLine).clientRect))
      = false := by
  decide

theorem processSpan_lastLeft (w off : ℚ) (st : GroupState) (s : Span) :
    (processSpan w off st s).lastLeft = s.rect.left := rfl

theorem processSpan_lastBottom (w off : ℚ) (st : GroupState) (s : Span) :
    (processSpan w off st s).lastBottom = s.rect.bottom := rfl

theorem processSpan_lastPageIndex (w off : ℚ) (st : GroupState) (s : Span) :
    (processSpan w off st s).lastPageIndex =
      if jsLt (.fin (st.lastPageIndex : ℚ)) (pageIndexOfClientRect w off s.rect)
      then st.lastPageIndex + 1 else st.lastPageIndex := by
  dsimp only [processSpan]
  split
  · split <;> rfl
  · split <;> rfl

theorem foldl_lastLeft (w off : ℚ) (l : List Span) (st : GroupState) :
    (l.foldl (processSpan w off) st).lastLeft =
      (match l.getLast? with
       | none => st.lastLeft
       | some s => s.rect.left) := by
  induction l generalizing st with
  | nil => rfl
  | cons x t ih =>
    rw [List.foldl_cons, ih]
    cases t with
    | nil => exact processSpan_lastLeft w off st x
    | cons y u => rfl

theorem foldl_lastBottom (w off : ℚ) (l : List Span) (st : GroupState) :
    (l.foldl (processSpan w off) st).lastBottom =
      (match l.getLast? with
       | none => st.lastBottom
       | some s => s.rect.bottom) := by
  induction l generalizing st with
  | nil => rfl
  | cons x t ih =>
    rw [List.foldl_cons, ih]
    cases t with
    | nil => exact processSpan_lastBottom w off st x
    | cons y u => rfl

theorem foldl_lastPageIndex (w off : ℚ) (l : List Span) (st : GroupState) :
    (l.foldl (processSpan w off) st).lastPageIndex =
      crossingsFrom w off st.lastPageIndex l := by
  induction l generalizing st with
  | nil => rfl
  | cons x t ih =>
    rw [List.foldl_cons, ih, processSpan_lastPageIndex]
    rfl

/-- C3: at every fragment, the decision of the line grouper equals the
specified three-way disjunction, where the lookback values are the
previous fragment's left and bottom edges (minus infinity before any
fragment) and the page counter starts at 0 and is incremented by exactly
1 at each crossing; in particular, whenever the left edge does not
advance past the previous left edge, a new line begins. -/
theorem c3_newline_condition_matches_spec (w off : ℚ) (pre : List Span) (f : Span) :
    newLineIsBeginning w off (pre.foldl (processSpan w off) initGroupState) f.rect =
      (jsLe f.rect.left (specPrevLeft pre)
       || jsLe (specPrevBottom pre) f.rect.top
       || jsLt (.fin ((specCrossings w off pre : ℕ) : ℚ))
            (pageIndexOfClientRect w off f.rect))
    ∧ (pre.foldl (processSpan w off) initGroupState).lastPageIndex
      = specCrossings w off pre
    ∧ (jsLe f.rect.left (specPrevLeft pre) = true →
        newLineIsBeginning w off (pre.foldl (processSpan w off) initGroupState) f.rect
          = true) := by
  have hL : (pre.foldl (processSpan w off) initGroupState).lastLeft = specPrevLeft pre := by
    rw [foldl_lastLeft]
    unfold specPrevLeft
    cases pre.getLast? <;> rfl
  have hB : (pre.foldl (processSpan w off) initGroupState).lastBottom
      = specPrevBottom pre := by
    rw [foldl_lastBottom]
    unfold specPrevBottom
    cases pre.getLast? <;> rfl
  have hP : (pre.foldl (processSpan w off) initGroupState).lastPageIndex
      = specCrossings w off pre := by
    rw [foldl_lastPageIndex]
    rfl
  have hco : newLineIsBeginning w off (pre.foldl (processSpan w off) initGroupState) f.rect
      = (jsLe f.rect.left (specPrevLeft pre)
         || jsLe (specPrevBottom pre) f.rect.top
         || jsLt (.fin ((specCrossings w off pre : ℕ) : ℚ))
              (pageIndexOfClientRect w off f.rect)) := by
    unfold newLineIsBeginning
    rw [hL, hB, hP]
  refine ⟨hco, hP, ?_⟩
  intro h
  simp [hco, h]

/-- Scenario B as a witness for C3: after the fragment with left edge 20,
the fragment with left edge 5 (top unchanged) satisfies the left-edge
clause of the condition, so a new line begins. -/
theorem c3_newline_condition_witness :
    newLineIsBeginning 100 0 ([spanB1].foldl (processSpan 100 0) initGroupState)
      spanB2.rect = true :=
  (c3_newline_condition_matches_spec 100 0 [spanB1] spanB2).2.2 (by decide)

theorem processSpan_true_lines (w off : ℚ) (st : GroupState) (s : Span)
    (h : newLineIsBeginning w off st s.rect = true) :
    (processSpan w off st s).lines = addCurrentLineToLines st := by
  dsimp only [processSpan]
  rw [if_pos h]

theorem processSpan_true_spans (w off : ℚ) (st : GroupState) (s : Span)
    (h : newLineIsBeginning w off st s.rect = true) :
    (processSpan w off st s).currentLineSpans = [s] := by
  dsimp only [processSpan]
  rw [if_pos h]

theorem processSpan_true_rect (w off : ℚ) (st : GroupState) (s : Span)
    (h : newLineIsBeginning w off st s.rect = true) :
    (processSpan w off st s).currentLineClientRect = s.rect := by
  dsimp only [processSpan]
  rw [if_pos h]

theorem processSpan_false_lines (w off : ℚ) (st : GroupState) (s : Span)
    (h : newLineIsBeginning w off st s.rect = false) :
    (processSpan w off st s).lines = st.lines := by
  dsimp only [processSpan]
  rw [if_neg (by simp [h])]

theorem processSpan_false_spans (w off : ℚ) (st : GroupState) (s : Span)
    (h : newLineIsBeginning w off st s.rect = false) :
    (processSpan w off st s).currentLineSpans = st.currentLineSpans ++ [s] := by
  dsimp only [processSpan]
  rw [if_neg (by simp [h])]

theorem processSpan_false_rect (w off : ℚ) (st : GroupState) (s : Span)
    (h : newLineIsBeginning w off st s.rect = false) :
    (processSpan w off st s).currentLineClientRect
      = clientRectUnion st.currentLineClientRect s.rect := by
  dsimp only [processSpan]
  rw [if_neg (by simp [h])]

theorem rectMM_single (s : Span) : RectMM s.rect [s] := by
  refine ⟨?_, ?_, ?_, ?_⟩ <;>
    simp [List.map_singleton, jsMinList_single, jsMaxList_single]

theorem normRect_of_rectMM {r : ClientRect} {ms : List Span}
    (h : RectMM r ms) (hne : ms ≠ []) (hm : ∀ m ∈ ms, NormRect m.rect) :
    NormRect r := by
  obtain ⟨m0, hm0⟩ := List.exists_mem_of_ne_nil ms hne
  obtain ⟨h1, h2, h3, h4⟩ := h
  constructor
  · rw [h1, h2]
    exact jsLe_trans
      (jsLe_trans (jsMinList_le (List.mem_map_of_mem _ hm0)) (hm m0 hm0).1)
      (jsMaxList_ge (List.mem_map_of_mem _ hm0))
  · rw [h3, h4]
    exact jsLe_trans
      (jsLe_trans (jsMinList_le (List.mem_map_of_mem _ hm0)) (hm m0 hm0).2)
      (jsMaxList_ge (List.mem_map_of_mem _ hm0))

theorem rectMM_union {r : ClientRect} {ms : List Span} (s : Span)
    (h : RectMM r ms) (hr : NormRect r) (hs : NormRect s.rect) :
    RectMM (clientRectUnion r s.rect) (ms ++ [s]) := by
  obtain ⟨e1, e2, e3, e4⟩ := clientRectUnion_edges r s.rect hr hs
  obtain ⟨h1, h2, h3, h4⟩ := h
  refine ⟨?_, ?_, ?_, ?_⟩
  · rw [e1, h1, List.map_append, List.map_singleton, jsMinList_append]
  · rw [e2, h2, List.map_append, List.map_singleton, jsMaxList_append]
  · rw [e3, h3, List.map_append, List.map_singleton, jsMinList_append]
  · rw [e4, h4, List.map_append, List.map_singleton, jsMaxList_append]

theorem groupInv_step (w off : ℚ) (st : GroupState) (s : Span)
    (hs : NormRect s.rect) (hinv : GroupInv st) : GroupInv (processSpan w off st s) := by
  cases hb : newLineIsBeginning w off st s.rect with
  | true =>
    refine ⟨?_, ?_, ?_, ?_⟩
    · rw [processSpan_true_spans w off st s hb]
      intro h
      simp at h
    · rw [processSpan_true_spans w off st s hb, processSpan_true_rect w off st s hb]
      intro _
      exact ⟨rectMM_single s, hs⟩
    · rw [processSpan_true_lines w off st s hb]
      intro e he hne
      unfold addCurrentLineToLines at he
      rcases List.mem_append.mp he with he | he
      · exact hinv.sealed e he hne
      · rw [List.mem_singleton.mp he] at hne ⊢
        exact (hinv.cur hne).1
    · rw [processSpan_true_lines w off st s hb]
      intro e he hemp
      unfold addCurrentLineToLines at he
      rcases List.mem_append.mp he with he | he
      · exact hinv.sealedEmpty e he hemp
      · rw [List.mem_singleton.mp he] at hemp ⊢
        exact (hinv.emptyCur hemp).2
  | false =>
    have hne : st.currentLineSpans ≠ [] := by
      intro h
      have hb2 := (hinv.emptyCur h).1
      unfold newLineIsBeginning at hb
      rw [hb2] at hb
      simp [jsLe] at hb
    refine ⟨?_, ?_, ?_, ?_⟩
    · rw [processSpan_false_spans w off st s hb]
      intro h
      simp at h
    · rw [processSpan_false_spans w off st s hb, processSpan_false_rect w off st s hb]
      intro _
      obtain ⟨hmm, hnr⟩ := hinv.cur hne
      exact ⟨rectMM_union s hmm hnr hs, clientRectUnion_norm _ _⟩
    · rw [processSpan_false_lines w off st s hb]
      exact hinv.sealed
    · rw [processSpan_false_lines w off st s hb]
      exact hinv.sealedEmpty

theorem groupInv_init : GroupInv initGroupState := by
  refine ⟨?_, ?_, ?_, ?_⟩
  · intro _
    exact ⟨rfl, rfl⟩
  · intro h
    exact absurd rfl h
  · intro e he
    exact absurd he (List.not_mem_nil e)
  · intro e he
    exact absurd he (List.not_mem_nil e)

theorem groupInv_foldl (w off : ℚ) (l : List Span) :
    ∀ st : GroupState, (∀ s ∈ l, NormRect s.rect) → GroupInv st →
      GroupInv (l.foldl (processSpan w off) st) := by
  induction l with
  | nil => exact fun _ _ hinv => hinv
  | cons x t ih =>
    intro st hl hinv
    rw [List.foldl_cons]
    exact ih _ (fun s hsm => hl s (List.mem_cons_of_mem x hsm))
      (groupInv_step w off st x (hl x (List.mem_cons_self x t)) hinv)

theorem linesOfSpansE_inv (w off : ℚ) (spans : List Span)
    (h : ∀ s ∈ spans, NormRect s.rect) :
    ∀ e ∈ linesOfSpansE w off spans,
      (e.members ≠ [] → RectMM e.clientRect e.members)
      ∧ (e.members = [] → e.clientRect = sentinelRect) := by
  have hinv := groupInv_foldl w off spans initGroupState h groupInv_init

  intro e he
  unfold linesOfSpansE addCurrentLineToLines at he
  rcases List.mem_append.mp he with he | he
  · exact ⟨hinv.sealed e he, hinv.sealedEmpty e he⟩
  · rw [List.mem_singleton.mp he]
    exact ⟨fun hne => (hinv.cur hne).1, fun hemp => (hinv.emptyCur hemp).2⟩

/-- C4: every output line with at least one member fragment carries as
its rectangle the smallest rectangle enclosing the rectangles of its
members: its left edge is the minimum of the member lefts, its right the
maximum of the member rights, its top the minimum of the member tops and
its bottom the maximum of the member bottoms (all member rectangles being
normalized, as `getBoundingClientRect` guarantees). -/
theorem c4_line_rect_unions_members (w off : ℚ) (spans : List Span)
    (h : ∀ s ∈ spans, NormRect s.rect) :
    ∀ e ∈ linesOfSpansE w off spans, e.members ≠ [] →
      e.clientRect.left = jsMinList (e.members.map fun s => s.rect.left)
      ∧ e.clientRect.right = jsMaxList (e.members.map fun s => s.rect.right)
      ∧ e.clientRect.top = jsMinList (e.members.map fun s => s.rect.top)
      ∧ e.clientRect.bottom = jsMaxList (e.members.map fun s => s.rect.bottom) :=
  fun e he hne => (linesOfSpansE_inv w off spans h e he).1 hne

/-- Scenario A as a witness for C4: the single line built from the two
same-line fragments carries the union rectangle of their rectangles. -/
theorem c4_line_rect_unions_members_witness :
    emLineA.clientRect.left = jsMinList (emLineA.members.map fun s => s.rect.left)
    ∧ emLineA.clientRect.right = jsMaxList (emLineA.members.map fun s => s.rect.right)
    ∧ emLineA.clientRect.top = jsMinList (emLineA.members.map fun s => s.rect.top)
    ∧ emLineA.clientRect.bottom
      = jsMaxList (emLineA.members.map fun s => s.rect.bottom) :=
  c4_line_rect_unions_members 100 0 [spanA1, spanA2] (by decide) emLineA
    (by decide) (by decide)

theorem processSpan_members (w off : ℚ) (st : GroupState) (s : Span) :
    (processSpan w off st s).lines.flatMap EmLine.members
      ++ (processSpan w off st s).currentLineSpans
    = (st.lines.flatMap EmLine.members ++ st.currentLineSpans) ++ [s] := by
  cases hb : newLineIsBeginning w off st s.rect with
  | false =>
    rw [processSpan_false_lines w off st s hb, processSpan_false_spans w off st s hb,
      List.append_assoc]
  | true =>
    rw [processSpan_true_lines w off st s hb, processSpan_true_spans w off st s hb]
    unfold addCurrentLineToLines
    rw [List.flatMap_append]
    simp

theorem foldl_members (w off : ℚ) (l : List Span) :
    ∀ st : GroupState,
      (l.foldl (processSpan w off) st).lines.flatMap EmLine.members
        ++ (l.foldl (processSpan w off) st).currentLineSpans
      = (st.lines.flatMap EmLine.members ++ st.currentLineSpans) ++ l := by
  induction l with
  | nil => intro st; simp
  | cons x t ih =>
    intro st
    rw [List.foldl_cons, ih, processSpan_members]
    simp

theorem linesOfSpansE_members (w off : ℚ) (spans : List Span) :
    (linesOfSpansE w off spans).flatMap EmLine.members = spans := by
  have h : (spans.foldl (processSpan w off) initGroupState).lines.flatMap EmLine.members
      ++ (spans.foldl (processSpan w off) initGroupState).currentLineSpans = spans :=
    (foldl_members w off spans initGroupState).trans (by rfl)
  unfold linesOfSpansE addCurrentLineToLines
  rw [List.flatMap_append]
  simp [h]

theorem processSpan_textOk (w off : ℚ) (st : GroupState) (s : Span)
    (h : ∀ e ∈ st.lines, TextOk e) :
    ∀ e ∈ (processSpan w off st s).lines, TextOk e := by
  cases hb : newLineIsBeginning w off st s.rect with
  | false =>
    rw [processSpan_false_lines w off st s hb]
    exact h
  | true =>
    rw [processSpan_true_lines w off st s hb]
    intro e he
    rcases List.mem_append.mp (by exact he) with he2 | he2
    · exact h e he2
    · rw [List.mem_singleton.mp he2]
      rfl

theorem foldl_textOk (w off : ℚ) (l : List Span) :
    ∀ st : GroupState, (∀ e ∈ st.lines, TextOk e) →
      ∀ e ∈ (l.foldl (processSpan w off) st).lines, TextOk e := by
  induction l with
  | nil => exact fun _ h => h
  | cons x t ih =>
    intro st h
    rw [List.foldl_cons]
    exact ih _ (processSpan_textOk w off st x h)

/-- C9: every output line, the phantom sentinel line included, has as its
text its member texts joined with a single ASCII space in member order;
moreover the member lists of the output lines concatenate, in output
order, to exactly the input span list, so the member order inside each
line is the input fragment order. -/
theorem c9_line_text_is_joined_members (w off : ℚ) (spans : List Span) :
    (∀ e ∈ linesOfSpansE w off spans, TextOk e)
    ∧ (linesOfSpansE w off spans).flatMap EmLine.members = spans := by
  constructor
  · intro e he
    unfold linesOfSpansE addCurrentLineToLines at he
    rcases List.mem_append.mp he with he2 | he2
    · exact foldl_textOk w off spans initGroupState
        (fun e2 he3 => absurd he3 (List.not_mem_nil e2)) e he2
    · rw [List.mem_singleton.mp he2]
      rfl
  · exact linesOfSpansE_members w off spans

/-- Witness for C9 at the two-fragment scenario: the grouped line has
text joined from its two members, and the member lists of the output
reproduce the input list. -/
theorem c9_line_text_is_joined_members_witness :
    TextOk emLineA
    ∧ (linesOfSpansE 100 0 [spanA1, spanA2]).flatMap EmLine.members
      = [spanA1, spanA2] :=
  ⟨(c9_line_text_is_joined_members 100 0 [spanA1, spanA2]).1 emLineA (by decide),
   (c9_line_text_is_joined_members 100 0 [spanA1, spanA2]).2⟩

theorem setPage_get (p : JsPages) (i : ℕ) (ls : List Line) (j : ℕ) :
    (setPage p i ls).getElem j = if j = i then some ls else p.getElem j := rfl

theorem assignLine_mem (w off : ℚ) (p : JsPages) (line : Line) (i : ℕ) (l : Line)
    (h : l ∈ ((assignLine w off p line).getElem i).getD []) :
    (l = line ∧ jsArrayIndex (pageIndexOfClientRect w off line.clientRect) = some i)
    ∨ l ∈ (p.getElem i).getD [] := by
  unfold assignLine at h
  cases hidx : jsArrayIndex (pageIndexOfClientRect w off line.clientRect) with
  | none =>
    rw [hidx] at h
    exact Or.inr h
  | some k =>
    rw [hidx] at h
    rw [setPage_get] at h
    by_cases hik : i = k
    · subst hik
      rw [if_pos rfl] at h
      simp only [Option.getD_some] at h
      rcases List.mem_append.mp h with h2 | h2
      · exact Or.inr h2
      · exact Or.inl ⟨List.mem_singleton.mp h2, rfl⟩
    · rw [if_neg hik] at h
      exact Or.inr h

theorem assignFold_mem (w off : ℚ) (ls : List Line) :
    ∀ (p : JsPages) (i : ℕ) (l : Line),
      l ∈ (((ls.foldl (assignLine w off) p).getElem i).getD []) →
        (l ∈ ls ∧ jsArrayIndex (pageIndexOfClientRect w off l.clientRect) = some i)
        ∨ l ∈ ((p.getElem i).getD []) := by
  induction ls with
  | nil => exact fun p i l h => Or.inr h
  | cons x t ih =>
    intro p i l h
    rw [List.foldl_cons] at h
    rcases ih (assignLine w off p x) i l h with ⟨hmem, hidx⟩ | h2
    · exact Or.inl ⟨List.mem_cons_of_mem x hmem, hidx⟩
    · rcases assignLine_mem w off p x i l h2 with ⟨heq, hidx⟩ | h3
      · subst heq
        exact Or.inl ⟨List.mem_cons_self l t, hidx⟩
      · exact Or.inr h3

theorem fillPages_succ (p : JsPages) (n : ℕ) :
    fillPages p (n + 1) =
      (if ((fillPages p n).getElem n).isNone
       then setPage (fillPages p n) n [] else fillPages p n) := by
  unfold fillPages
  rw [List.range_succ, List.foldl_append]
  rfl

theorem fillPages_get (p : JsPages) (n : ℕ) :
    ∀ j, (fillPages p n).getElem j
      = if j < n ∧ (p.getElem j).isNone = true then some [] else p.getElem j := by
  induction n with
  | zero => intro j; simp [fillPages]
  | succ n ih =>
    intro j
    have hiff : (j < n ∧ (p.getElem j).isNone = true)
        → (j < n + 1 ∧ (p.getElem j).isNone = true) :=
      fun hh => ⟨Nat.lt_succ_of_lt hh.1, hh.2⟩
    have hnot : ¬(j = n) → ¬(j < n ∧ (p.getElem j).isNone = true)
        → ¬(j < n + 1 ∧ (p.getElem j).isNone = true) := by
      intro hj hc hh
      rcases Nat.lt_succ_iff_lt_or_eq.mp hh.1 with h3 | h3
      · exact hc ⟨h3, hh.2⟩
      · exact hj h3
    rw [fillPages_succ]
    by_cases hn : ((fillPages p n).getElem n).isNone = true
    · rw [if_pos hn, setPage_get]
      rw [ih n] at hn
      have hpn : (p.getElem n).isNone = true := by
        simpa [lt_irrefl n] using hn
      by_cases hj : j = n
      · subst hj
        rw [if_pos rfl, if_pos ⟨Nat.lt_succ_self j, hpn⟩]
      · rw [if_neg hj, ih j]
        by_cases hc : j < n ∧ (p.getElem j).isNone = true
        · rw [if_pos hc, if_pos (hiff hc)]
        · rw [if_neg hc, if_neg (hnot hj hc)]
    · rw [if_neg hn, ih j]
      rw [ih n] at hn
      have hpn : ¬ (p.getElem n).isNone = true := by
        simpa [lt_irrefl n] using hn
      by_cases hj : j = n
      · subst hj
        rw [if_neg (fun hh => hpn hh.2), if_neg (fun hh => hpn hh.2)]
      · by_cases hc : j < n ∧ (p.getElem j).isNone = true
        · rw [if_pos hc, if_pos (hiff hc)]
        · rw [if_neg hc, if_neg (hnot hj hc)]

theorem fillPages_mem (p : JsPages) (n : ℕ) (i : ℕ) (l : Line)
    (h : l ∈ ((fillPages p n).getElem i).getD []) :
    l ∈ (p.getElem i).getD [] := by
  rw [fillPages_get p n i] at h
  by_cases hc : i < n ∧ (p.getElem i).isNone = true
  · rw [if_pos hc] at h
    simp at h
  · rw [if_neg hc] at h
    exact h

/-- C8: the page assigner changes no field of any line.  Every line found
in any page of the output is literally one of the input lines, with its
absolute rectangle untouched (no page-relative conversion is ever
applied), and it sits in the bucket whose index is the page index the
shared `pageIndexOfClientRect` formula computes from that absolute
rectangle. -/
theorem c8_pages_store_unchanged_lines (w off totalW : ℚ) (lines : List Line)
    (i : ℕ) (l : Line)
    (h : l ∈ pageLinesAt (pagesOfLines w off totalW lines) i) :
    l ∈ lines
    ∧ jsArrayIndex (pageIndexOfClientRect w off l.clientRect) = some i := by
  unfold pagesOfLines pageLinesAt at h
  have h2 := fillPages_mem _ _ i l h
  rcases assignFold_mem w off lines emptyPages i l h2 with hgood | hbad
  · exact hgood
  · simp [emptyPages] at hbad

/-- Witness for C8: the line built from scenario A is stored, unchanged,
in the page 0 bucket of the output. -/
theorem c8_pages_store_unchanged_lines_witness :
    lineA ∈ [lineA]
    ∧ jsArrayIndex (pageIndexOfClientRect 100 0 lineA.clientRect) = some 0 :=
  c8_pages_store_unchanged_lines 100 0 250 [lineA] 0 lineA (by decide)

theorem setPage_wf {p : JsPages} (hp : PagesWF p) (i : ℕ) (ls : List Line) :
    PagesWF (setPage p i ls) := by
  intro j hj
  rw [setPage_get] at hj
  show j < max p.length (i + 1)
  by_cases hji : j = i
  · subst hji
    exact lt_max_of_lt_right (Nat.lt_succ_self j)
  · rw [if_neg hji] at hj
    exact lt_max_of_lt_left (hp j hj)

theorem assignLine_wf (w off : ℚ) {p : JsPages} (hp : PagesWF p) (line : Line) :
    PagesWF (assignLine w off p line) := by
  unfold assignLine
  cases jsArrayIndex (pageIndexOfClientRect w off line.clientRect) with
  | none => exact hp
  | some k => exact setPage_wf hp k _

theorem assignFold_wf (w off : ℚ) (ls : List Line) :
    ∀ p : JsPages, PagesWF p → PagesWF (ls.foldl (assignLine w off) p) := by
  induction ls with
  | nil => exact fun _ hp => hp
  | cons x t ih =>
    intro p hp
    rw [List.foldl_cons]
    exact ih _ (assignLine_wf w off hp x)

theorem fillPages_wf (n : ℕ) {p : JsPages} (hp : PagesWF p) :
    PagesWF (fillPages p n) := by
  induction n with
  | zero => exact hp
  | succ n ih =>
    rw [fillPages_succ]
    by_cases hn : ((fillPages p n).getElem n).isNone = true
    · rw [if_pos hn]
      exact setPage_wf ih n []
    · rw [if_neg hn]
      exact ih

theorem fillPages_length {p : JsPages} (hp : PagesWF p) (n : ℕ) :
    (fillPages p n).length = max p.length n := by
  induction n with
  | zero => simp [fillPages]
  | succ n ih =>
    rw [fillPages_succ]
    by_cases hn : ((fillPages p n).getElem n).isNone = true
    · rw [if_pos hn]
      show max (fillPages p n).length (n + 1) = max p.length (n + 1)
      rw [ih]
      omega
    · rw [if_neg hn]
      rw [ih]
      have hlt : n < (fillPages p n).length := by
        apply fillPages_wf n hp
        cases hg : ((fillPages p n).getElem n) with
        | none => rw [hg] at hn; simp at hn
        | some v => simp
      rw [ih] at hlt
      omega

theorem fillPages_covers (p : JsPages) (n : ℕ) (j : ℕ) (hj : j < n) :
    ((fillPages p n).getElem j).isSome = true := by
  rw [fillPages_get p n j]
  by_cases hc : j < n ∧ (p.getElem j).isNone = true
  · rw [if_pos hc]
    rfl
  · rw [if_neg hc]
    cases hg : p.getElem j with
    | none => exact absurd ⟨hj, by rw [hg]; rfl⟩ hc
    | some v => rfl

theorem assignFold_bound (w off : ℚ) (N : ℕ) (ls : List Line)
    (hls : ∀ l ∈ ls, ∀ k : ℕ,
      jsArrayIndex (pageIndexOfClientRect w off l.clientRect) = some k → k < N) :
    ∀ p : JsPages, p.length ≤ N → (∀ j, (p.getElem j).isSome = true → j < N) →
      (ls.foldl (assignLine w off) p).length ≤ N
      ∧ ∀ j, ((ls.foldl (assignLine w off) p).getElem j).isSome = true → j < N := by
  induction ls with
  | nil => exact fun p h1 h2 => ⟨h1, h2⟩
  | cons x t ih =>
    intro p h1 h2
    rw [List.foldl_cons]
    refine ih (fun l hl => hls l (List.mem_cons_of_mem x hl)) (assignLine w off p x)
      ?_ ?_
    · unfold assignLine
      cases hidx : jsArrayIndex (pageIndexOfClientRect w off x.clientRect) with
      | none => exact h1
      | some k =>
        show max p.length (k + 1) ≤ N
        have hk : k < N := hls x (List.mem_cons_self x t) k hidx
        omega
    · unfold assignLine
      cases hidx : jsArrayIndex (pageIndexOfClientRect w off x.clientRect) with
      | none => exact h2
      | some k =>
        intro j hj
        rw [setPage_get] at hj
        by_cases hjk : j = k
        · subst hjk
          exact hls x (List.mem_cons_self x t) j hidx
        · rw [if_neg hjk] at hj
          exact h2 j hj

theorem members_mem_spans (w off : ℚ) (spans : List Span) {e : EmLine}
    (he : e ∈ linesOfSpansE w off spans) {m : Span} (hm : m ∈ e.members) :
    m ∈ spans := by
  rw [← linesOfSpansE_members w off spans]
  exact List.mem_flatMap.mpr ⟨e, he, hm⟩

theorem sentinel_pageIndex (w off : ℚ) (hw : 0 < w) :
    pageIndexOfClientRect w off sentinelRect = .posInf := by
  simp [pageIndexOfClientRect, sentinelRect, jsAdd, jsDiv, jsFloor, le_of_lt hw]

theorem line_pageIndex_bound (w off totalW : ℚ) (hw : 0 < w) (spans : List Span)
    (hnorm : ∀ s ∈ spans, NormRect s.rect)
    (hrange : ∀ s ∈ spans,
      ∃ q : ℚ, s.rect.left = .fin q ∧ 0 ≤ q + off ∧ q + off < totalW)
    (e : EmLine) (he : e ∈ linesOfSpansE w off spans) :
    ∀ k : ℕ, jsArrayIndex (pageIndexOfClientRect w off e.clientRect) = some k →
      k < (⌈totalW / w⌉).toNat := by
  intro k hk
  rcases linesOfSpansE_inv w off spans hnorm e he with ⟨hmm, hsent⟩
  by_cases hemp : e.members = []
  · rw [hsent hemp, sentinel_pageIndex w off hw] at hk
    simp [jsArrayIndex] at hk
  · obtain ⟨hL, _, _, _⟩ := hmm hemp
    have hne : (e.members.map fun s => s.rect.left) ≠ [] := by simp [hemp]
    have hmem := jsMinList_mem hne
    rw [← hL] at hmem
    rcases List.mem_map.mp hmem with ⟨m, hm, hmL⟩
    rcases hrange m (members_mem_spans w off spans he hm) with ⟨q, hq, hq0, hqT⟩
    have heleft : e.clientRect.left = .fin q := by rw [← hmL, hq]
    have hpi : pageIndexOfClientRect w off e.clientRect
        = .fin ((⌊(q + off) / w⌋ : ℤ) : ℚ) := by
      unfold pageIndexOfClientRect
      rw [heleft]
      simp [jsAdd, jsDiv, jsFloor, ne_of_gt hw]
    rw [hpi] at hk
    have h0 : (0:ℤ) ≤ ⌊(q + off) / w⌋ :=
      Int.floor_nonneg.mpr (div_nonneg hq0 (le_of_lt hw))
    have hlt : ⌊(q + off) / w⌋ < ⌈totalW / w⌉ := by
      apply Int.floor_lt.mpr
      calc (q + off) / w < totalW / w := by gcongr
        _ ≤ (⌈totalW / w⌉ : ℚ) := Int.le_ceil _
    have hc1 : (0:ℚ) ≤ ((⌊(q + off) / w⌋ : ℤ) : ℚ) := by exact_mod_cast h0
    have hred : jsArrayIndex (JsNum.fin ((⌊(q + off) / w⌋ : ℤ) : ℚ))
        = some ((⌊(q + off) / w⌋).toNat) := by
      simp only [jsArrayIndex]
      rw [if_pos ⟨hc1, Rat.den_intCast _⟩, Rat.num_intCast]
    rw [hred] at hk
    have hk2 := Option.some.inj hk
    omega

/-- C5: the output page sequence has length exactly the total page count
`ceil(totalW / w)` and every index below it holds a page (possibly with
an empty lines list), provided the page width is positive and every
fragment rectangle is normalized with its absolute left edge inside the
document extent.  The phantom sentinel line, whose page index is plus
infinity, never lands in any page and so cannot disturb the count. -/
theorem c5_page_sequence_complete (w off totalW : ℚ) (hw : 0 < w) (spans : List Span)
    (hnorm : ∀ s ∈ spans, NormRect s.rect)
    (hrange : ∀ s ∈ spans,
      ∃ q : ℚ, s.rect.left = .fin q ∧ 0 ≤ q + off ∧ q + off < totalW) :
    (pagesOfLines w off totalW (linesOfSpans w off spans)).length
      = (⌈totalW / w⌉).toNat
    ∧ ∀ j < (⌈totalW / w⌉).toNat,
        ((pagesOfLines w off totalW (linesOfSpans w off spans)).getElem j).isSome
          = true := by
  have hempwf : PagesWF emptyPages := by
    intro j hj
    simp [emptyPages] at hj
  have hls : ∀ l ∈ linesOfSpans w off spans, ∀ k : ℕ,
      jsArrayIndex (pageIndexOfClientRect w off l.clientRect) = some k →
        k < (⌈totalW / w⌉).toNat := by
    intro l hl k hk
    rcases List.mem_map.mp hl with ⟨e, he, rfl⟩
    exact line_pageIndex_bound w off totalW hw spans hnorm hrange e he k hk
  have hb := assignFold_bound w off (⌈totalW / w⌉).toNat (linesOfSpans w off spans)
    hls emptyPages (by simp [emptyPages]) (fun j hj => by simp [emptyPages] at hj)
  constructor
  · show (fillPages _ _).length = _
    rw [fillPages_length (assignFold_wf w off (linesOfSpans w off spans) emptyPages
      hempwf) (⌈totalW / w⌉).toNat]
    have h1 := hb.1
    omega
  · intro j hj
    exact fillPages_covers _ _ j hj

/-- Witness for C5: one fragment on page 0, document width 250 and page
width 100, so three pages, the last two empty. -/
theorem c5_page_sequence_complete_witness :
    (pagesOfLines 100 0 250 (linesOfSpans 100 0 [spanA1])).length
      = (⌈(250:ℚ) / 100⌉).toNat
    ∧ ∀ j < (⌈(250:ℚ) / 100⌉).toNat,
        ((pagesOfLines 100 0 250 (linesOfSpans 100 0 [spanA1])).getElem j).isSome
          = true :=
  c5_page_sequence_complete 100 0 250 (by norm_num) [spanA1] (by decide)
    (fun s hs => by
      rw [List.mem_singleton.mp hs]
      exact ⟨0, rfl, by norm_num, by norm_num⟩)

end LBLA
